import Mathlib

/-!
Shallow embedding of the agent discovery and metadata-caching subsystem in
`core/agent_loader.py` (the free function `extract_frontmatter` and the class
`DynamicAgentLoader`), together with proofs about the embedded operations.

Modelling conventions:
* Python `float` modification times are modelled as `Nat` (only their order
  is ever inspected by the code).
* Values stored in a parsed YAML mapping are modelled by `PyVal`: a string,
  `None`, or an opaque non-string value (`other`).  The code only observes
  whether such a value is a (truthy) string, whether it is `None`, and whether
  it equals a given string, so `other` carries no payload; equality of an
  `other` value with a string is `false`.
* A Python `dict` / `OrderedDict` is modelled as an insertion-ordered
  association list: assignment to an existing key updates the value in place
  (keeping the key's position), assignment to a fresh key appends at the end,
  exactly like `OrderedDict.__setitem__`; `popitem(last=False)` removes the
  head; `del` removes the key's entry, keeping the order of the others.
* A raised exception is modelled with `Except`: `.error st` is an exception
  escaping with the loader state `st` as mutated up to the raise point.
* The filesystem is an explicit value `Fs`, read afresh by each operation:
  three category roots holding files with a modification time, a readability
  flag (an unreadable or undecodable file raises on read, which the code
  catches and skips) and the frontmatter mapping that the file's text yields
  (`none` models text with no extractable frontmatter).  A fault flag on a
  root models an unexpected enumeration failure (`glob` / `iterdir` raising).
-/

/-- A Python value as observed by the loader: a string, `None`, or any other
object (whose only observable here is that it is not a string). -/
inductive PyVal where
  | str (s : String)
  | pyNone
  | other
deriving DecidableEq

/-- A parsed YAML frontmatter mapping (a Python dict of header fields). -/
abbrev Metadata := List (String × PyVal)

/-- Lookup in an insertion-ordered association list (Python `d[k]` / `d.get(k)`). -/
def alistLookup {κ α : Type} [DecidableEq κ] : List (κ × α) → κ → Option α
  | [], _ => none
  | (k, v) :: rest, q => if k = q then some v else alistLookup rest q

/-- Membership test (Python `k in d`). -/
def alistContains {κ α : Type} [DecidableEq κ] (l : List (κ × α)) (q : κ) : Bool :=
  (alistLookup l q).isSome

/-- Removal of a key's entry, keeping the order of the others (Python `del d[k]`). -/
def alistErase {κ α : Type} [DecidableEq κ] : List (κ × α) → κ → List (κ × α)
  | [], _ => []
  | (k, v) :: rest, q => if k = q then rest else (k, v) :: alistErase rest q

/-- Python `d[k] = v` on an (ordered) dict: update in place when the key is
present (its position is unchanged), append at the end when it is fresh. -/
def dictInsert {κ α : Type} [DecidableEq κ] : List (κ × α) → κ → α → List (κ × α)
  | [], q, v => [(q, v)]
  | (k, w) :: rest, q, v => if k = q then (k, v) :: rest else (k, w) :: dictInsert rest q v

/-- The keys of an association list, in insertion order. -/
def alistKeys {κ α : Type} (l : List (κ × α)) : List κ := l.map Prod.fst

/-- Python `metadata.get(k, d)`. -/
def mget (md : Metadata) (k : String) (d : PyVal) : PyVal :=
  (alistLookup md k).getD d

/-- Python `bool(v) and isinstance(v, str)`: `v` is a non-empty string.
The code always tests the negation `not v or not isinstance(v, str)`. -/
def pyTruthyStr : PyVal → Bool
  | .str s => !(s == "")
  | _ => false

/-- Python `v == s` for a string `s`: only a string value can compare equal. -/
def pyEqStr : PyVal → String → Bool
  | .str s, t => s == t
  | _, _ => false

/-- The three agent categories (`"command"`, `"skill"`, `"agent"`). -/
inductive AgentType where
  | command
  | skill
  | agent
deriving DecidableEq

/-- A monitored definition-file path: an `.md` file in the commands root, a
`SKILL.md` file inside a subdirectory of the skills root, or an `.md` file in
the agents root. -/
inductive AgentPath where
  | commandFile (stem : String)
  | skillFile (dirName : String)
  | agentFile (stem : String)
deriving DecidableEq

/-- Python `Path.stem`: for a skill the file is always named `SKILL.md`. -/
def AgentPath.stem : AgentPath → String
  | .commandFile s => s
  | .skillFile _ => "SKILL"
  | .agentFile s => s

/-- The `file_path.parents` checks of `watch_changes` resolved on the model:
which category root a monitored path belongs to. -/
def categoryOf : AgentPath → AgentType
  | .commandFile _ => .command
  | .skillFile _ => .skill
  | .agentFile _ => .agent

/-- One on-disk definition file: its modification time, whether reading it
succeeds, and the frontmatter mapping its text yields (`none` when the text
holds no valid frontmatter block). -/
structure FsFile where
  mtime : Nat
  readable : Bool
  frontmatter : Option Metadata
deriving DecidableEq

/-- The filesystem as seen through the three configured category roots. -/
structure Fs where
  commandsDirExists : Bool
  commandsFault : Bool
  commandFiles : List (String × FsFile)
  skillsDirExists : Bool
  skillsFault : Bool
  skillDirs : List (String × Option FsFile)
  agentsDirExists : Bool
  agentsFault : Bool
  agentFiles : List (String × FsFile)
deriving DecidableEq

/-- Resolve a monitored path on the filesystem (a path inside a root that does
not exist resolves to nothing). -/
def fsFind (fs : Fs) : AgentPath → Option FsFile
  | .commandFile s => if fs.commandsDirExists then alistLookup fs.commandFiles s else none
  | .skillFile d => if fs.skillsDirExists then (alistLookup fs.skillDirs d).bind id else none
  | .agentFile s => if fs.agentsDirExists then alistLookup fs.agentFiles s else none

/-- Python `file_path.stat().st_mtime`, `none` modelling `FileNotFoundError`. -/
def fsStat (fs : Fs) (p : AgentPath) : Option Nat := (fsFind fs p).map FsFile.mtime

/-- The `VirtualAgent` dataclass of `models/virtual_agent.py` as produced by
the loader.  The dataclass performs no validation, so `id`, `name` and
`description` hold whatever Python value the loader computed. -/
structure VirtualAgent where
  id : PyVal
  type : AgentType
  name : PyVal
  description : PyVal
  source_file : AgentPath
  emoji : String
  color : String
  enabled : Bool
  workspace_id : Option String
  metadata : Metadata
deriving DecidableEq

/-- The three change-event kinds. -/
inductive ChangeKind where
  | added
  | modified
  | removed
deriving DecidableEq

/-- The `AgentChangeEvent` class. -/
structure AgentChangeEvent where
  event_type : ChangeKind
  agent_id : PyVal
  agent_type : AgentType
  source_file : AgentPath
deriving DecidableEq

/-- The mutable state of a `DynamicAgentLoader`: the insertion-ordered
`_metadata_cache`, the `_mtime_cache`, and `_cache_max_size`. -/
structure LoaderState where
  metadataCache : List (AgentPath × Metadata)
  mtimeCache : List (AgentPath × Nat)
  cacheMaxSize : Nat
deriving DecidableEq

/-- A freshly constructed loader: both caches empty. -/
def emptyLoaderState (maxSize : Nat) : LoaderState := ⟨[], [], maxSize⟩

/-- `EMOJI_MAP` restricted to the three agent types (the `.get` default is
unreachable since `agent_type` is always one of the three). -/
def emojiFor : AgentType → String
  | .command => "📝"
  | .skill => "🎯"
  | .agent => "🤖"

/-- The `color_map` of `create_virtual_agent`. -/
def colorFor : AgentType → String
  | .command => "#3498db"
  | .skill => "#9b59b6"
  | .agent => "#2ecc71"

/-- `DynamicAgentLoader.get_cached_metadata`: return the cached mapping when
the entry exists and the file's current modification time does not exceed the
stored one (`_mtime_cache.get(path, 0)`); on `FileNotFoundError` drop both
entries (guarded `del`s) and miss; when the file is newer, `del` both entries
unguarded - which raises `KeyError` if the path has a metadata entry but no
mtime entry - and miss. -/
def get_cached_metadata (st : LoaderState) (fs : Fs) (file_path : AgentPath) :
    Except LoaderState (Option Metadata × LoaderState) :=
  if alistContains st.metadataCache file_path = false then .ok (none, st)
  else
    match fsStat fs file_path with
    | none =>
        .ok (none, { st with metadataCache := alistErase st.metadataCache file_path,
                             mtimeCache := alistErase st.mtimeCache file_path })
    | some current_mtime =>
        let cached_mtime := (alistLookup st.mtimeCache file_path).getD 0
        if cached_mtime < current_mtime then
          if alistContains st.mtimeCache file_path then
            .ok (none, { st with metadataCache := alistErase st.metadataCache file_path,
                                 mtimeCache := alistErase st.mtimeCache file_path })
          else .error { st with metadataCache := alistErase st.metadataCache file_path }
        else .ok (alistLookup st.metadataCache file_path, st)

/-- The guarded cache-entry removal pattern used by `reload_agent` and
`watch_changes` (`if path in cache: del cache[path]` on both caches). -/
def invalidateEntry (st : LoaderState) (p : AgentPath) : LoaderState :=
  { st with metadataCache := alistErase st.metadataCache p,
            mtimeCache := alistErase st.mtimeCache p }

/-- `DynamicAgentLoader._cache_metadata`: when the entry count has reached
`_cache_max_size`, pop the oldest-inserted entry first (`popitem(last=False)`,
a `KeyError` on an empty `OrderedDict`) and drop its mtime entry (guarded);
then insert the mapping (an `OrderedDict` assignment) and, when the file can
be statted, record its modification time (`FileNotFoundError` is swallowed,
leaving no mtime entry). -/
def cache_metadata (st : LoaderState) (fs : Fs) (file_path : AgentPath) (metadata : Metadata) :
    Except LoaderState LoaderState :=
  if st.cacheMaxSize ≤ st.metadataCache.length then
    match st.metadataCache with
    | [] => .error st
    | (oldest, _) :: restCache =>
        let st1 : LoaderState :=
          { st with metadataCache := restCache,
                    mtimeCache := alistErase st.mtimeCache oldest }
        .ok { st1 with
                metadataCache := dictInsert st1.metadataCache file_path metadata,
                mtimeCache :=
                  match fsStat fs file_path with
                  | some m => dictInsert st1.mtimeCache file_path m
                  | none => st1.mtimeCache }
  else
    .ok { st with
            metadataCache := dictInsert st.metadataCache file_path metadata,
            mtimeCache :=
              match fsStat fs file_path with
              | some m => dictInsert st.mtimeCache file_path m
              | none => st.mtimeCache }

/-- A sequence of `_cache_metadata` calls, each with the filesystem it
observed.  A call that raises (`KeyError` from `popitem` on an empty cache,
possible only with `_cache_max_size = 0`) leaves the cache unchanged and the
sequence continues with the next call. -/
def putSeq : List (Fs × AgentPath × Metadata) → LoaderState → LoaderState
  | [], st => st
  | (fs, p, md) :: rest, st =>
      match cache_metadata st fs p md with
      | .ok st1 => putSeq rest st1
      | .error st1 => putSeq rest st1

/-- `DynamicAgentLoader.create_virtual_agent`: promote `id` / `name` /
`description` from the header mapping, falling back to the corresponding
argument when the header value is absent, falsy, or not a string (for the
description: the empty string when it is `None` or not a string). -/
def create_virtual_agent (agent_type : AgentType) (idArg nameArg descriptionArg : PyVal)
    (source_file : AgentPath) (metadata : Metadata) : VirtualAgent :=
  let rawId := mget metadata "id" idArg
  let agent_id := if pyTruthyStr rawId then rawId else idArg
  let rawName := mget metadata "name" nameArg
  let agent_name := if pyTruthyStr rawName then rawName else nameArg
  let rawDescription := mget metadata "description" descriptionArg
  let agent_description :=
    match rawDescription with
    | PyVal.pyNone => PyVal.str ""
    | PyVal.str s => PyVal.str s
    | PyVal.other => PyVal.str ""
  { id := agent_id, type := agent_type, name := agent_name,
    description := agent_description, source_file := source_file,
    emoji := emojiFor agent_type, color := colorFor agent_type,
    enabled := true, workspace_id := none, metadata := metadata }

/-- The tail of `_load_agent_from_file`: build the `VirtualAgent` from the
mapping (`metadata.get("id", file_path.stem)` and friends as the fallback
arguments) and, when `emit_event` is set, the single change event whose kind
is `modified` exactly when `was_cached` was observed `True` at entry. -/
def buildLoadedAgent (file_path : AgentPath) (agent_type : AgentType)
    (was_cached emit_event : Bool) (metadata : Metadata) :
    VirtualAgent × List AgentChangeEvent :=
  let agent := create_virtual_agent agent_type
    (mget metadata "id" (PyVal.str file_path.stem))
    (mget metadata "name" (PyVal.str file_path.stem))
    (mget metadata "description" (PyVal.str ""))
    file_path metadata
  let events :=
    if emit_event then
      [⟨if was_cached then ChangeKind.modified else ChangeKind.added,
        agent.id, agent_type, file_path⟩]
    else []
  (agent, events)

/-- `DynamicAgentLoader._load_agent_from_file`: note `was_cached` is read
before `get_cached_metadata` runs; a read failure (`FileNotFoundError` or
`UnicodeDecodeError`) returns `None`; absent frontmatter is cached as the
empty mapping. -/
def load_agent_from_file (st : LoaderState) (fs : Fs) (file_path : AgentPath)
    (agent_type : AgentType) (emit_event : Bool) :
    Except LoaderState (Option VirtualAgent × LoaderState × List AgentChangeEvent) :=
  let was_cached := alistContains st.metadataCache file_path
  match get_cached_metadata st fs file_path with
  | .error st1 => .error st1
  | .ok (some metadata, st1) =>
      let (agent, events) := buildLoadedAgent file_path agent_type was_cached emit_event metadata
      .ok (some agent, st1, events)
  | .ok (none, st1) =>
      match fsFind fs file_path with
      | none => .ok (none, st1, [])
      | some file =>
          if file.readable = false then .ok (none, st1, [])
          else
            let metadata := file.frontmatter.getD []
            match cache_metadata st1 fs file_path metadata with
            | .error st2 => .error st2
            | .ok st2 =>
                let (agent, events) :=
                  buildLoadedAgent file_path agent_type was_cached emit_event metadata
                .ok (some agent, st2, events)

/-- The candidate files of the commands root, in `glob("*.md")` order. -/
def commandCandidates (fs : Fs) : List (AgentPath × AgentType) :=
  fs.commandFiles.map (fun sf => (AgentPath.commandFile sf.1, AgentType.command))

/-- The candidate `SKILL.md` files of the skills root: every immediate
subdirectory that contains one, in `iterdir()` order. -/
def skillCandidates (fs : Fs) : List (AgentPath × AgentType) :=
  fs.skillDirs.filterMap
    (fun df => df.2.map (fun _ => (AgentPath.skillFile df.1, AgentType.skill)))

/-- The candidate files of the custom-agents root, in `glob("*.md")` order. -/
def agentCandidates (fs : Fs) : List (AgentPath × AgentType) :=
  fs.agentFiles.map (fun sf => (AgentPath.agentFile sf.1, AgentType.agent))

/-- The per-candidate search loop of `reload_agent`: a candidate matches when
its `get_cached_metadata` result is a truthy (non-empty) mapping whose `id`
equals the requested identifier; on a match both cache entries are deleted and
`_load_agent_from_file(..., emit_event=True)` runs, its agent being returned
when it is not `None` (otherwise the search continues with the mutated state).
Uncached candidates are never read from disk during the search. -/
def reloadSearch (fs : Fs) (agent_id : String) :
    List (AgentPath × AgentType) → LoaderState →
    Except LoaderState (Option VirtualAgent × LoaderState × List AgentChangeEvent)
  | [], st => .ok (none, st, [])
  | (p, ty) :: rest, st =>
      match get_cached_metadata st fs p with
      | .error st1 => .error st1
      | .ok (some metadata, st1) =>
          if (!metadata.isEmpty) && pyEqStr (mget metadata "id" PyVal.pyNone) agent_id then
            let st2 := invalidateEntry st1 p
            match load_agent_from_file st2 fs p ty true with
            | .error st3 => .error st3
            | .ok (some agent, st3, events) => .ok (some agent, st3, events)
            | .ok (none, st3, _) => reloadSearch fs agent_id rest st3
          else reloadSearch fs agent_id rest st1
      | .ok (none, st1) => reloadSearch fs agent_id rest st1

/-- One directory of the `reload_agent` loop: skipped when its root does not
exist, raising when enumerating it faults, otherwise searched. -/
def reloadDir (fs : Fs) (agent_id : String) (dirExists fault : Bool)
    (candidates : List (AgentPath × AgentType)) (st : LoaderState) :
    Except LoaderState (Option VirtualAgent × LoaderState × List AgentChangeEvent) :=
  if dirExists = false then .ok (none, st, [])
  else if fault then .error st
  else reloadSearch fs agent_id candidates st

/-- `DynamicAgentLoader.reload_agent`: search the commands, skills and agents
roots in that order, returning the first reloaded agent, or `None` when no
candidate matches. -/
def reload_agent (st : LoaderState) (fs : Fs) (agent_id : String) :
    Except LoaderState (Option VirtualAgent × LoaderState × List AgentChangeEvent) :=
  match reloadDir fs agent_id fs.commandsDirExists fs.commandsFault (commandCandidates fs) st with
  | .error st1 => .error st1
  | .ok (some agent, st1, events) => .ok (some agent, st1, events)
  | .ok (none, st1, _) =>
      match reloadDir fs agent_id fs.skillsDirExists fs.skillsFault (skillCandidates fs) st1 with
      | .error st2 => .error st2
      | .ok (some agent, st2, events) => .ok (some agent, st2, events)
      | .ok (none, st2, _) =>
          match reloadDir fs agent_id fs.agentsDirExists fs.agentsFault (agentCandidates fs) st2 with
          | .error st3 => .error st3
          | .ok (some agent, st3, events) => .ok (some agent, st3, events)
          | .ok (none, st3, _) => .ok (none, st3, [])

/-- The per-file loop shared by `scan_commands` / `scan_skills` /
`scan_custom_agents`: load each candidate, keep the agents that load, and
catch any exception a single file raises, continuing with the remaining
candidates (the loop's `try ... except Exception: continue`). -/
def scanFiles (fs : Fs) (agent_type : AgentType) :
    List AgentPath → LoaderState → List VirtualAgent × LoaderState
  | [], st => ([], st)
  | p :: rest, st =>
      match load_agent_from_file st fs p agent_type false with
      | .error st1 => scanFiles fs agent_type rest st1
      | .ok (some agent, st1, _) =>
          let (l, st2) := scanFiles fs agent_type rest st1
          (agent :: l, st2)
      | .ok (none, st1, _) => scanFiles fs agent_type rest st1

/-- `DynamicAgentLoader.scan_commands`: a missing root yields the empty list;
an enumeration fault raises out of the scanner. -/
def scan_commands (st : LoaderState) (fs : Fs) :
    Except LoaderState (List VirtualAgent × LoaderState) :=
  if fs.commandsDirExists = false then .ok ([], st)
  else if fs.commandsFault then .error st
  else .ok (scanFiles fs AgentType.command
              (fs.commandFiles.map (fun sf => AgentPath.commandFile sf.1)) st)

/-- `DynamicAgentLoader.scan_skills`. -/
def scan_skills (st : LoaderState) (fs : Fs) :
    Except LoaderState (List VirtualAgent × LoaderState) :=
  if fs.skillsDirExists = false then .ok ([], st)
  else if fs.skillsFault then .error st
  else .ok (scanFiles fs AgentType.skill
              (fs.skillDirs.filterMap (fun df => df.2.map (fun _ => AgentPath.skillFile df.1))) st)

/-- `DynamicAgentLoader.scan_custom_agents`. -/
def scan_custom_agents (st : LoaderState) (fs : Fs) :
    Except LoaderState (List VirtualAgent × LoaderState) :=
  if fs.agentsDirExists = false then .ok ([], st)
  else if fs.agentsFault then .error st
  else .ok (scanFiles fs AgentType.agent
              (fs.agentFiles.map (fun sf => AgentPath.agentFile sf.1)) st)

/-- The collection step of `scan_all`'s `asyncio.gather(...,
return_exceptions=True)`: a scanner's exception becomes a value contributing
the empty list, the state being whatever the scanner left behind. -/
def gatherPart (r : Except LoaderState (List VirtualAgent × LoaderState)) :
    List VirtualAgent × LoaderState :=
  match r with
  | .ok x => x
  | .error st1 => ([], st1)

/-- `DynamicAgentLoader.scan_all`: run the three scanners (their results are
always collected in commands, skills, agents order regardless of completion
order) and concatenate the per-category lists.  The shared cache is modelled
as threaded sequentially through the three scans. -/
def scan_all (st : LoaderState) (fs : Fs) : List VirtualAgent × LoaderState :=
  let r1 := gatherPart (scan_commands st fs)
  let r2 := gatherPart (scan_skills r1.2 fs)
  let r3 := gatherPart (scan_custom_agents r2.2 fs)
  (r1.1 ++ r2.1 ++ r3.1, r3.2)

/-- The monitored paths and their modification times, enumerated root by root
in the order `watch_changes` visits them (commands, skills, agents). -/
def monitoredEntries (fs : Fs) : List (AgentPath × Nat) :=
  (if fs.commandsDirExists then
      fs.commandFiles.map (fun sf => (AgentPath.commandFile sf.1, sf.2.mtime))
    else [])
  ++ (if fs.skillsDirExists then
        fs.skillDirs.filterMap
          (fun df => df.2.map (fun f => (AgentPath.skillFile df.1, f.mtime)))
      else [])
  ++ (if fs.agentsDirExists then
        fs.agentFiles.map (fun sf => (AgentPath.agentFile sf.1, sf.2.mtime))
      else [])

/-- One enumeration pass of `watch_changes` (used both for the initial
`known_files` build and for each cycle's `current_files` dict): an
enumeration fault in any existing root raises, killing the watcher. -/
def watchSnapshot (fs : Fs) : Except Unit (List (AgentPath × Nat)) :=
  if (fs.commandsDirExists && fs.commandsFault) || (fs.skillsDirExists && fs.skillsFault)
      || (fs.agentsDirExists && fs.agentsFault) then .error ()
  else .ok ((monitoredEntries fs).foldl (fun k pm => dictInsert k pm.1 pm.2) [])

/-- The new-file loop of a `watch_changes` cycle: every current path not yet
in `known_files` is loaded with `emit_event=True` and recorded. -/
def processAdded (fs : Fs) :
    List (AgentPath × Nat) → LoaderState → List (AgentPath × Nat) →
    Except LoaderState (LoaderState × List (AgentPath × Nat) × List AgentChangeEvent)
  | [], st, known => .ok (st, known, [])
  | (p, m) :: rest, st, known =>
      if alistContains known p then processAdded fs rest st known
      else
        match load_agent_from_file st fs p (categoryOf p) true with
        | .error st1 => .error st1
        | .ok (_, st1, events) =>
            match processAdded fs rest st1 (dictInsert known p m) with
            | .error st2 => .error st2
            | .ok (st2, known2, events2) => .ok (st2, known2, events ++ events2)

/-- The modified-file loop of a `watch_changes` cycle: a known path whose
modification time strictly increased has its cache entries deleted and is
reloaded with `emit_event=True`. -/
def processModified (fs : Fs) :
    List (AgentPath × Nat) → LoaderState → List (AgentPath × Nat) →
    Except LoaderState (LoaderState × List (AgentPath × Nat) × List AgentChangeEvent)
  | [], st, known => .ok (st, known, [])
  | (p, m) :: rest, st, known =>
      match alistLookup known p with
      | none => processModified fs rest st known
      | some oldMtime =>
          if oldMtime < m then
            let st1 := invalidateEntry st p
            match load_agent_from_file st1 fs p (categoryOf p) true with
            | .error st2 => .error st2
            | .ok (_, st2, events) =>
                match processModified fs rest st2 (dictInsert known p m) with
                | .error st3 => .error st3
                | .ok (st3, known3, events3) => .ok (st3, known3, events ++ events3)
          else processModified fs rest st known

/-- The identifier a removal event reports: the cached mapping's `id` when a
truthy mapping is still cached, the file's stem otherwise. -/
def removedAgentId (st : LoaderState) (p : AgentPath) : PyVal :=
  match alistLookup st.metadataCache p with
  | some metadata =>
      if metadata.isEmpty then PyVal.str p.stem else mget metadata "id" (PyVal.str p.stem)
  | none => PyVal.str p.stem

/-- The removed-file loop of a `watch_changes` cycle: emit a `removed` event
(reading the identifier before the caches are touched), drop the path from
`known_files` and delete both cache entries.  (Python iterates the removed
paths as a set, in unspecified order; the model iterates them in `known_files`
order - no property proved here depends on that order.) -/
def processRemoved :
    List AgentPath → LoaderState → List (AgentPath × Nat) →
    LoaderState × List (AgentPath × Nat) × List AgentChangeEvent
  | [], st, known => (st, known, [])
  | p :: rest, st, known =>
      let ev : AgentChangeEvent := ⟨ChangeKind.removed, removedAgentId st p, categoryOf p, p⟩
      let st1 := invalidateEntry st p
      let known1 := alistErase known p
      let (st2, known2, events) := processRemoved rest st1 known1
      (st2, known2, ev :: events)

/-- One poll cycle of `watch_changes`, given the loader state and the
`known_files` dict carried over from the previous cycle (from the initial
enumeration on the first cycle): detect additions, then modifications, then
removals, returning the new state, the updated `known_files` and the events
emitted in order. -/
def watchCycle (st : LoaderState) (known : List (AgentPath × Nat)) (fs : Fs) :
    Except LoaderState (LoaderState × List (AgentPath × Nat) × List AgentChangeEvent) :=
  match watchSnapshot fs with
  | .error _ => .error st
  | .ok current =>
      match processAdded fs current st known with
      | .error st1 => .error st1
      | .ok (st1, known1, events1) =>
          match processModified fs current st1 known1 with
          | .error st2 => .error st2
          | .ok (st2, known2, events2) =>
              let removed := (alistKeys known2).filter (fun p => !(alistContains current p))
              let (st3, known3, events3) := processRemoved removed st2 known2
              .ok (st3, known3, events1 ++ events2 ++ events3)

/-- The outcome of `yaml.safe_load` on a candidate frontmatter body: a raised
`YAMLError`, a successful parse to something other than a dict, or a parse to
a flat mapping.  The loader treats the YAML parser as a black box, so the
embedding is parameterised by it. -/
inductive YamlResult where
  | raisesError
  | nonDict
  | dict (m : Metadata)
deriving DecidableEq

/-- The `---` delimiter of a frontmatter block, as a character list. -/
def delimChars : List Char := ['-', '-', '-']

/-- Find the first (leftmost) occurrence of `sep` in `l`, returning the text
before it and the text after it; `none` when `sep` does not occur. -/
def splitFirstAt (sep : List Char) : List Char → Option (List Char × List Char)
  | [] => if sep.isEmpty then some ([], []) else none
  | c :: cs =>
      if sep.isPrefixOf (c :: cs) then some ([], (c :: cs).drop sep.length)
      else (splitFirstAt sep cs).map (fun ab => (c :: ab.1, ab.2))

/-- Python `s.split(sep, 2)`: at most two leftmost non-overlapping splits,
yielding one, two or three parts (the last part keeps any later occurrences). -/
def pySplit2 (sep : List Char) (l : List Char) : List (List Char) :=
  match splitFirstAt sep l with
  | none => [l]
  | some (a, r) =>
      match splitFirstAt sep r with
      | none => [a, r]
      | some (b, r2) => [a, b, r2]

/-- The whitespace set of Python `str.strip()` restricted to the ASCII
whitespace characters (sufficient here: only emptiness after stripping is
ever observed). -/
def isPySpace (c : Char) : Bool :=
  c = ' ' || c = '\t' || c = '\n' || c = '\r' || c = '\x0b' || c = '\x0c'

/-- Python `s.strip()`. -/
def pyStrip (l : List Char) : List Char :=
  ((l.dropWhile isPySpace).reverse.dropWhile isPySpace).reverse

/-- The free function `extract_frontmatter`, parameterised by the behaviour of
`yaml.safe_load`: `None` when the content does not start with `---`, when
`content.split("---", 2)` yields fewer than three parts, when the enclosed
text strips to nothing, when the parse raises `YAMLError` (caught, logged) or
when it yields a non-dict; the parsed mapping otherwise. -/
def extract_frontmatter (yamlLoad : String → YamlResult) (content : String) : Option Metadata :=
  if delimChars.isPrefixOf content.data = false then none
  else
    match pySplit2 delimChars content.data with
    | [_, p1, _] =>
        let yamlBody := pyStrip p1
        if yamlBody.isEmpty then none
        else
          match yamlLoad (String.mk yamlBody) with
          | YamlResult.dict m => some m
          | _ => none
    | _ => none

/-- The text enclosed between the first two occurrences of the delimiter,
when both occurrences exist. -/
def enclosedText (l : List Char) : Option (List Char) :=
  match splitFirstAt delimChars l with
  | none => none
  | some (_, r) =>
      match splitFirstAt delimChars r with
      | none => none
      | some (b, _) => some b

/-- A command-root path used by several concrete evaluations. -/
def pathA : AgentPath := AgentPath.commandFile "a"

/-- A frontmatter mapping declaring `id: a`. -/
def mdIdA : Metadata := [("id", PyVal.str "a")]

/-- A filesystem with exactly one command file `a.md` (mtime 5, readable,
frontmatter `id: a`) and no skills or agents roots. -/
def fsOneCommand : Fs :=
  { commandsDirExists := true, commandsFault := false,
    commandFiles := [("a", ⟨5, true, some mdIdA⟩)],
    skillsDirExists := false, skillsFault := false, skillDirs := [],
    agentsDirExists := false, agentsFault := false, agentFiles := [] }

/-- A loader state in which `a.md` is cached (fresh at mtime 5). -/
def stCachedA : LoaderState := ⟨[(pathA, mdIdA)], [(pathA, 5)], 1000⟩

/-- A filesystem with one command file `f.md` whose header declares an empty
`id` and an empty `name`. -/
def fsEmptyIdName : Fs :=
  { commandsDirExists := true, commandsFault := false,
    commandFiles := [("f", ⟨3, true, some [("id", PyVal.str ""), ("name", PyVal.str "")]⟩)],
    skillsDirExists := false, skillsFault := false, skillDirs := [],
    agentsDirExists := false, agentsFault := false, agentFiles := [] }

/-- A filesystem on which none of the three roots exists (every stat misses,
so `_cache_metadata` records no modification time). -/
def fsNone : Fs :=
  { commandsDirExists := false, commandsFault := false, commandFiles := [],
    skillsDirExists := false, skillsFault := false, skillDirs := [],
    agentsDirExists := false, agentsFault := false, agentFiles := [] }

/-- The loader state an operation left behind, whether it returned or raised. -/
def resultState (r : Except LoaderState LoaderState) : LoaderState :=
  match r with
  | .ok st => st
  | .error st => st

theorem alistLookup_isSome_iff {κ α : Type} [DecidableEq κ] (l : List (κ × α)) (q : κ) :
    (alistLookup l q).isSome = true ↔ q ∈ alistKeys l := by
  induction l with
  | nil => simp [alistLookup, alistKeys]
  | cons hd tl ih =>
      obtain ⟨k, v⟩ := hd
      by_cases hk : k = q
      · subst hk
        simp [alistLookup, alistKeys]
      · simp only [alistLookup, if_neg hk, alistKeys, List.map_cons, List.mem_cons, ih]
        constructor
        · exact fun h => Or.inr h
        · rintro (h | h)
          · exact absurd h.symm hk
          · exact h

theorem alistContains_iff {κ α : Type} [DecidableEq κ] (l : List (κ × α)) (q : κ) :
    alistContains l q = true ↔ q ∈ alistKeys l := by
  rw [alistContains]
  exact alistLookup_isSome_iff l q

theorem alistContains_false_iff {κ α : Type} [DecidableEq κ] (l : List (κ × α)) (q : κ) :
    alistContains l q = false ↔ q ∉ alistKeys l := by
  rw [← alistContains_iff]
  cases alistContains l q <;> simp

theorem alistLookup_eq_none_iff {κ α : Type} [DecidableEq κ] (l : List (κ × α)) (q : κ) :
    alistLookup l q = none ↔ q ∉ alistKeys l := by
  rw [← alistLookup_isSome_iff]
  cases alistLookup l q <;> simp

theorem alistLookup_of_mem_nodup {κ α : Type} [DecidableEq κ] {l : List (κ × α)} {q : κ} {v : α}
    (hnd : (alistKeys l).Nodup) (hm : (q, v) ∈ l) : alistLookup l q = some v := by
  induction l with
  | nil => cases hm
  | cons hd tl ih =>
      obtain ⟨k, w⟩ := hd
      rw [alistKeys, List.map_cons, List.nodup_cons] at hnd
      rcases List.mem_cons.mp hm with h | h
      · have h1 : q = k := (Prod.ext_iff.mp h).1
        have h2 : v = w := (Prod.ext_iff.mp h).2
        subst h1
        subst h2
        simp [alistLookup]
      · have hk : k ≠ q := by
          intro he
          subst he
          exact hnd.1 (List.mem_map.mpr ⟨(k, v), h, rfl⟩)
        rw [alistLookup, if_neg hk]
        exact ih hnd.2 h

theorem alistKeys_dictInsert {κ α : Type} [DecidableEq κ] (l : List (κ × α)) (k : κ) (v : α) :
    alistKeys (dictInsert l k v) =
      if alistContains l k then alistKeys l else alistKeys l ++ [k] := by
  induction l with
  | nil => simp [dictInsert, alistKeys, alistContains, alistLookup]
  | cons hd tl ih =>
      obtain ⟨a, w⟩ := hd
      by_cases ha : a = k
      · subst ha
        simp [dictInsert, alistKeys, alistContains, alistLookup]
      · have hc : alistContains ((a, w) :: tl) k = alistContains tl k := by
          simp [alistContains, alistLookup, if_neg ha]
        rw [dictInsert, if_neg ha, hc]
        by_cases ht : alistContains tl k = true
        · rw [if_pos ht]
          simp only [alistKeys, List.map_cons] at ih ⊢
          rw [if_pos ht] at ih
          rw [ih]
        · rw [if_neg ht]
          simp only [alistKeys, List.map_cons] at ih ⊢
          rw [if_neg ht] at ih
          rw [ih, List.cons_append]

theorem alistKeys_nodup_dictInsert {κ α : Type} [DecidableEq κ] {l : List (κ × α)} (k : κ) (v : α)
    (hnd : (alistKeys l).Nodup) : (alistKeys (dictInsert l k v)).Nodup := by
  rw [alistKeys_dictInsert]
  by_cases hc : alistContains l k = true
  · rw [if_pos hc]
    exact hnd
  · rw [if_neg hc, ← List.concat_eq_append]
    have hc2 : alistContains l k = false := by
      revert hc
      cases alistContains l k <;> simp
    exact List.Nodup.concat ((alistContains_false_iff l k).mp hc2) hnd

theorem length_dictInsert {κ α : Type} [DecidableEq κ] (l : List (κ × α)) (k : κ) (v : α) :
    (dictInsert l k v).length = if alistContains l k then l.length else l.length + 1 := by
  have h1 : (dictInsert l k v).length = (alistKeys (dictInsert l k v)).length := by
    rw [alistKeys, List.length_map]
  have h2 : l.length = (alistKeys l).length := by rw [alistKeys, List.length_map]
  rw [h1, alistKeys_dictInsert]
  by_cases hc : alistContains l k = true
  · rw [if_pos hc, if_pos hc, h2]
  · rw [if_neg hc, if_neg hc, List.length_append, h2, List.length_singleton]

theorem dictInsert_of_notContains {κ α : Type} [DecidableEq κ] {l : List (κ × α)} {k : κ} (v : α)
    (hc : alistContains l k = false) : dictInsert l k v = l ++ [(k, v)] := by
  induction l with
  | nil => simp [dictInsert]
  | cons hd tl ih =>
      obtain ⟨a, w⟩ := hd
      have ha : a ≠ k := by
        intro he
        subst he
        simp [alistContains, alistLookup] at hc
      have hc2 : alistContains tl k = false := by
        simpa [alistContains, alistLookup, if_neg ha] using hc
      rw [dictInsert, if_neg ha, ih hc2, List.cons_append]

theorem alistLookup_erase_ne {κ α : Type} [DecidableEq κ] (l : List (κ × α)) {p q : κ}
    (h : q ≠ p) : alistLookup (alistErase l p) q = alistLookup l q := by
  induction l with
  | nil => rfl
  | cons hd tl ih =>
      obtain ⟨k, v⟩ := hd
      by_cases hk : k = p
      · subst hk
        rw [alistErase, if_pos rfl, alistLookup, if_neg (fun he => h he.symm)]
      · rw [alistErase, if_neg hk, alistLookup, alistLookup]
        by_cases hq : k = q
        · rw [if_pos hq, if_pos hq]
        · rw [if_neg hq, if_neg hq, ih]

theorem alistLookup_erase_self {κ α : Type} [DecidableEq κ] {l : List (κ × α)} (p : κ)
    (hnd : (alistKeys l).Nodup) : alistLookup (alistErase l p) p = none := by
  induction l with
  | nil => rfl
  | cons hd tl ih =>
      obtain ⟨k, v⟩ := hd
      rw [alistKeys, List.map_cons, List.nodup_cons] at hnd
      by_cases hk : k = p
      · subst hk
        rw [alistErase, if_pos rfl, alistLookup_eq_none_iff]
        exact hnd.1
      · rw [alistErase, if_neg hk, alistLookup, if_neg hk]
        exact ih hnd.2


theorem cache_metadata_cases (st : LoaderState) (fs : Fs) (p : AgentPath) (md : Metadata) :
    (st.metadataCache = [] ∧ st.cacheMaxSize ≤ st.metadataCache.length ∧
        cache_metadata st fs p md = .error st) ∨
    (∃ oldest v tl st2, st.metadataCache = (oldest, v) :: tl ∧
        st.cacheMaxSize ≤ st.metadataCache.length ∧
        cache_metadata st fs p md = .ok st2 ∧
        st2.metadataCache = dictInsert tl p md ∧
        st2.cacheMaxSize = st.cacheMaxSize) ∨
    (∃ st2, st.metadataCache.length < st.cacheMaxSize ∧
        cache_metadata st fs p md = .ok st2 ∧
        st2.metadataCache = dictInsert st.metadataCache p md ∧
        st2.cacheMaxSize = st.cacheMaxSize) := by
  obtain ⟨mc, mt, mx⟩ := st
  by_cases hcap : mx ≤ mc.length
  · cases mc with
    | nil =>
        refine Or.inl ⟨rfl, hcap, ?_⟩
        unfold cache_metadata
        rw [if_pos hcap]
    | cons hd tl =>
        obtain ⟨oldest, v⟩ := hd
        refine Or.inr (Or.inl ⟨oldest, v, tl,
          ⟨dictInsert tl p md,
            (match fsStat fs p with
              | some m => dictInsert (alistErase mt oldest) p m
              | none => alistErase mt oldest),
            mx⟩,
          rfl, hcap, ?_, rfl, rfl⟩)
        unfold cache_metadata
        rw [if_pos hcap]
  · refine Or.inr (Or.inr ⟨⟨dictInsert mc p md,
      (match fsStat fs p with
        | some m => dictInsert mt p m
        | none => mt),
      mx⟩, lt_of_not_le hcap, ?_, rfl, rfl⟩)
    unfold cache_metadata
    rw [if_neg hcap]

theorem putSeq_single_ok {st st2 : LoaderState} {fs : Fs} {p : AgentPath} {md : Metadata}
    (h : cache_metadata st fs p md = .ok st2) : putSeq [(fs, p, md)] st = st2 := by
  simp only [putSeq, h]

theorem putSeq_invariant (ops : List (Fs × AgentPath × Metadata)) :
    ∀ st : LoaderState, st.metadataCache.length ≤ st.cacheMaxSize →
      (alistKeys st.metadataCache).Nodup →
      (putSeq ops st).metadataCache.length ≤ (putSeq ops st).cacheMaxSize ∧
        (alistKeys (putSeq ops st).metadataCache).Nodup ∧
        (putSeq ops st).cacheMaxSize = st.cacheMaxSize := by
  induction ops with
  | nil =>
      intro st h1 h2
      exact ⟨h1, h2, rfl⟩
  | cons op rest ih =>
      intro st h1 h2
      obtain ⟨fs, p, md⟩ := op
      rcases cache_metadata_cases st fs p md with
        ⟨_, _, hcm⟩ | ⟨oldest, v, tl, st2, hmc, hcap, hcm, hmd2, hmax2⟩ | ⟨st2, hlt, hcm, hmd2, hmax2⟩
      · simp only [putSeq, hcm]
        exact ih st h1 h2
      · simp only [putSeq, hcm]
        have hnd : (alistKeys tl).Nodup := by
          rw [hmc, alistKeys, List.map_cons, List.nodup_cons] at h2
          exact h2.2
        have hlen2 : st2.metadataCache.length ≤ st2.cacheMaxSize := by
          rw [hmd2, hmax2]
          have htl : tl.length + 1 = st.metadataCache.length := by
            rw [hmc, List.length_cons]
          have hdl := length_dictInsert tl p md
          by_cases hc : alistContains tl p = true
          · rw [if_pos hc] at hdl
            omega
          · rw [if_neg hc] at hdl
            omega
        have hnd2 : (alistKeys st2.metadataCache).Nodup := by
          rw [hmd2]
          exact alistKeys_nodup_dictInsert p md hnd
        have h := ih st2 hlen2 hnd2
        exact ⟨h.1, h.2.1, h.2.2.trans hmax2⟩
      · simp only [putSeq, hcm]
        have hlen2 : st2.metadataCache.length ≤ st2.cacheMaxSize := by
          rw [hmd2, hmax2]
          have hdl := length_dictInsert st.metadataCache p md
          by_cases hc : alistContains st.metadataCache p = true
          · rw [if_pos hc] at hdl
            omega
          · rw [if_neg hc] at hdl
            omega
        have hnd2 : (alistKeys st2.metadataCache).Nodup := by
          rw [hmd2]
          exact alistKeys_nodup_dictInsert p md h2
        have h := ih st2 hlen2 hnd2
        exact ⟨h.1, h.2.1, h.2.2.trans hmax2⟩

/-- Claim C4: starting from an empty cache, no sequence of `_cache_metadata`
calls ever brings the metadata cache's entry count above `cache_max_size`, and
the cache never holds two entries for the same path. -/
theorem cache_putSeq_bounded (ops : List (Fs × AgentPath × Metadata)) (maxSize : Nat) :
    (putSeq ops (emptyLoaderState maxSize)).metadataCache.length ≤ maxSize ∧
      (alistKeys (putSeq ops (emptyLoaderState maxSize)).metadataCache).Nodup := by
  have h := putSeq_invariant ops (emptyLoaderState maxSize)
    (by simp [emptyLoaderState]) (by simp [emptyLoaderState, alistKeys])
  refine ⟨?_, h.2.1⟩
  have h1 := h.1
  have h2 := h.2.2
  have h3 : (emptyLoaderState maxSize).cacheMaxSize = maxSize := rfl
  omega

theorem putSeq_append (a b : List (Fs × AgentPath × Metadata)) (st : LoaderState) :
    putSeq (a ++ b) st = putSeq b (putSeq a st) := by
  induction a generalizing st with
  | nil => rfl
  | cons op rest ih =>
      obtain ⟨fs, p, md⟩ := op
      rw [List.cons_append]
      cases h : cache_metadata st fs p md with
      | ok st1 =>
          simp only [putSeq, h]
          exact ih st1
      | error st1 =>
          simp only [putSeq, h]
          exact ih st1

theorem putSeq_fill (ops : List (Fs × AgentPath × Metadata)) :
    ∀ st : LoaderState,
      (alistKeys st.metadataCache ++ ops.map (fun o => o.2.1)).Nodup →
      st.metadataCache.length + ops.length ≤ st.cacheMaxSize →
      (putSeq ops st).metadataCache =
          st.metadataCache ++ ops.map (fun o => (o.2.1, o.2.2)) ∧
        (putSeq ops st).cacheMaxSize = st.cacheMaxSize := by
  induction ops with
  | nil =>
      intro st h1 h2
      simp [putSeq]
  | cons op rest ih =>
      intro st hnd hlen
      obtain ⟨fs, p, md⟩ := op
      have hlt : st.metadataCache.length < st.cacheMaxSize := by
        rw [List.length_cons] at hlen
        omega
      rcases cache_metadata_cases st fs p md with
        ⟨_, hcap, _⟩ | ⟨oldest, v, tl, st2, _, hcap, _, _, _⟩ | ⟨st2, _, hcm, hmd2, hmax2⟩
      · omega
      · omega
      · simp only [putSeq, hcm]
        have hp : alistContains st.metadataCache p = false := by
          rw [alistContains_false_iff]
          intro hmem
          rw [List.map_cons, List.nodup_append] at hnd
          exact hnd.2.2 hmem (List.mem_cons_self p _)
        have hins : st2.metadataCache = st.metadataCache ++ [(p, md)] := by
          rw [hmd2]
          exact dictInsert_of_notContains md hp
        have hkeys : alistKeys st2.metadataCache = alistKeys st.metadataCache ++ [p] := by
          rw [hins, alistKeys, List.map_append]
          rfl
        have h := ih st2
          (by
            rw [hkeys, List.append_assoc, List.singleton_append]
            rw [List.map_cons] at hnd
            exact hnd)
          (by
            rw [hins, List.length_append, List.length_singleton, hmax2]
            rw [List.length_cons] at hlen
            omega)
        refine ⟨?_, h.2.trans hmax2⟩
        rw [h.1, hins, List.append_assoc, List.singleton_append, List.map_cons]

/-- Claim C5: with capacity at least 1, inserting `maxEntries + 1` distinct
paths into an empty cache leaves the first-inserted path absent and every
other inserted path present (FIFO eviction of exactly the oldest entry). -/
theorem cache_fifo_first_evicted (o : Fs × AgentPath × Metadata)
    (rest : List (Fs × AgentPath × Metadata)) (maxSize : Nat)
    (hmax : 0 < maxSize) (hlen : (o :: rest).length = maxSize + 1)
    (hnd : ((o :: rest).map (fun x => x.2.1)).Nodup) :
    alistLookup (putSeq (o :: rest) (emptyLoaderState maxSize)).metadataCache o.2.1 = none ∧
      ∀ x ∈ rest,
        alistContains (putSeq (o :: rest) (emptyLoaderState maxSize)).metadataCache x.2.1
          = true := by
  have hrlen : rest.length = maxSize := by
    rw [List.length_cons] at hlen
    omega
  rcases List.eq_nil_or_concat' rest with hre | ⟨rest1, olast, hre⟩
  · rw [hre] at hrlen
    simp at hrlen
    omega
  · have hr1len : rest1.length + 1 = maxSize := by
      rw [hre, List.length_append, List.length_singleton] at hrlen
      omega
    have hsplit : o :: rest = (o :: rest1) ++ [olast] := by
      rw [hre, List.cons_append]
    have hfill := putSeq_fill (o :: rest1) (emptyLoaderState maxSize)
      (by
        have hz : alistKeys (emptyLoaderState maxSize).metadataCache ++
            (o :: rest1).map (fun x => x.2.1) = (o :: rest1).map (fun x => x.2.1) := rfl
        rw [hz]
        rw [hre, ← List.cons_append] at hnd
        have hsub : ((o :: rest1).map (fun x => x.2.1)).Sublist
            (((o :: rest1) ++ [olast]).map (fun x => x.2.1)) :=
          List.Sublist.map _ (List.sublist_append_left _ _)
        exact hsub.nodup hnd)
      (by
        have e1 : (emptyLoaderState maxSize).metadataCache.length = 0 := rfl
        have e2 : (emptyLoaderState maxSize).cacheMaxSize = maxSize := rfl
        have e3 : (o :: rest1).length = rest1.length + 1 := List.length_cons _ _
        omega)
    have hfillmd : (putSeq (o :: rest1) (emptyLoaderState maxSize)).metadataCache =
        (o :: rest1).map (fun x => (x.2.1, x.2.2)) := by
      rw [hfill.1]
      rfl
    have hfilllen : (putSeq (o :: rest1) (emptyLoaderState maxSize)).metadataCache.length
        = maxSize := by
      rw [hfillmd, List.length_map, List.length_cons]
      omega
    obtain ⟨lfs, lp, lmd⟩ := olast
    rcases cache_metadata_cases (putSeq (o :: rest1) (emptyLoaderState maxSize)) lfs lp lmd
      with ⟨hnil, _, _⟩ | ⟨oldest, v, tl, st2, hmc, _, hcm, hmd2, _⟩ | ⟨st2, hlt, _, _, _⟩
    · rw [hfillmd] at hnil
      cases hnil
    · have hcombined : (oldest, v) :: tl =
          (o.2.1, o.2.2) :: rest1.map (fun x => (x.2.1, x.2.2)) := by
        rw [← hmc, hfillmd, List.map_cons]
      injection hcombined with hh ht
      have hkeysmap1 : alistKeys (rest1.map fun x => (x.2.1, x.2.2)) =
          rest1.map (fun x => x.2.1) := by
        rw [alistKeys, List.map_map]
        rfl
      have hlpfresh : alistContains tl lp = false := by
        rw [ht, alistContains_false_iff, hkeysmap1]
        intro hmem
        rw [hre, ← List.cons_append, List.map_append, List.nodup_append] at hnd
        have hmem1 : lp ∈ (o :: rest1).map (fun x => x.2.1) := by
          rw [List.map_cons]
          exact List.mem_cons_of_mem _ hmem
        have hmem2 : lp ∈ [(lfs, lp, lmd)].map (fun x => x.2.1) := by
          simp
        exact hnd.2.2 hmem1 hmem2
      have hfinal : (putSeq (o :: rest) (emptyLoaderState maxSize)).metadataCache =
          rest.map (fun x => (x.2.1, x.2.2)) := by
        rw [hsplit, putSeq_append, putSeq_single_ok hcm, hmd2,
          dictInsert_of_notContains lmd hlpfresh, ht, hre, List.map_append]
        rfl
      have hkeysmap : alistKeys (rest.map fun x => (x.2.1, x.2.2)) =
          rest.map (fun x => x.2.1) := by
        rw [alistKeys, List.map_map]
        rfl
      constructor
      · rw [hfinal, alistLookup_eq_none_iff, hkeysmap]
        intro hmem
        rw [List.map_cons, List.nodup_cons] at hnd
        exact hnd.1 hmem
      · intro x hx
        rw [hfinal, alistContains_iff, hkeysmap]
        exact List.mem_map.mpr ⟨x, hx, rfl⟩
    · rw [hfilllen] at hlt
      have hm := hfill.2
      have e2 : (emptyLoaderState maxSize).cacheMaxSize = maxSize := rfl
      omega

/-- Witness for claim C5: capacity 2, three distinct paths inserted; the first
is gone, the later two remain. -/
theorem cache_fifo_first_evicted_witness :
    alistLookup (putSeq [(fsNone, AgentPath.commandFile "a", []),
        (fsNone, AgentPath.commandFile "b", []), (fsNone, AgentPath.commandFile "c", [])]
        (emptyLoaderState 2)).metadataCache (AgentPath.commandFile "a") = none ∧
      ∀ x ∈ [((fsNone, AgentPath.commandFile "b", []) : Fs × AgentPath × Metadata),
          (fsNone, AgentPath.commandFile "c", [])],
        alistContains (putSeq [(fsNone, AgentPath.commandFile "a", []),
            (fsNone, AgentPath.commandFile "b", []), (fsNone, AgentPath.commandFile "c", [])]
            (emptyLoaderState 2)).metadataCache x.2.1 = true :=
  cache_fifo_first_evicted (fsNone, AgentPath.commandFile "a", [])
    [(fsNone, AgentPath.commandFile "b", []), (fsNone, AgentPath.commandFile "c", [])] 2
    (by decide) (by decide) (by decide)

/-- Claim C6 (amended): when the entry count has reached capacity,
`_cache_metadata` evicts exactly the single oldest-inserted entry before
inserting.  After the insertion the path is the most-recently-inserted entry
when it was not already present (after the eviction); a path that was already
present keeps its original position - an `OrderedDict` assignment does NOT
update the insertion order of an existing key. -/
theorem cache_metadata_order_spec (st : LoaderState) (fs : Fs) (p : AgentPath) (md : Metadata)
    (h : 0 < st.cacheMaxSize ∨ st.metadataCache ≠ []) :
    ∃ pre st2, cache_metadata st fs p md = .ok st2 ∧
      ((st.metadataCache.length < st.cacheMaxSize ∧ pre = st.metadataCache) ∨
        (st.cacheMaxSize ≤ st.metadataCache.length ∧
          ∃ q v, st.metadataCache = (q, v) :: pre)) ∧
      st2.metadataCache = dictInsert pre p md ∧
      (alistContains pre p = false → alistKeys st2.metadataCache = alistKeys pre ++ [p]) ∧
      (alistContains pre p = true → alistKeys st2.metadataCache = alistKeys pre) := by
  rcases cache_metadata_cases st fs p md with
    ⟨hnil, hcap, _⟩ | ⟨oldest, v, tl, st2, hmc, hcap, hcm, hmd2, _⟩ | ⟨st2, hlt, hcm, hmd2, _⟩
  · exfalso
    rcases h with h0 | hne
    · rw [hnil] at hcap
      simp at hcap
      omega
    · exact hne hnil
  · refine ⟨tl, st2, hcm, Or.inr ⟨hcap, oldest, v, hmc⟩, hmd2, ?_, ?_⟩
    · intro hc
      simp [hmd2, alistKeys_dictInsert, hc]
    · intro hc
      simp [hmd2, alistKeys_dictInsert, hc]
  · refine ⟨st.metadataCache, st2, hcm, Or.inl ⟨hlt, rfl⟩, hmd2, ?_, ?_⟩
    · intro hc
      simp [hmd2, alistKeys_dictInsert, hc]
    · intro hc
      simp [hmd2, alistKeys_dictInsert, hc]

/-- Witness for claim C6: a cache at capacity 1 holding `a.md`; putting `b.md`
evicts the oldest entry (`a.md`) and inserts `b.md` at the most-recent
position. -/
theorem cache_metadata_order_spec_witness :
    ∃ pre st2,
      cache_metadata ⟨[(pathA, mdIdA)], [], 1⟩ fsNone (AgentPath.commandFile "b") [] =
          .ok st2 ∧
        ((([(pathA, mdIdA)] : List (AgentPath × Metadata)).length < 1 ∧
            pre = [(pathA, mdIdA)]) ∨
          (1 ≤ ([(pathA, mdIdA)] : List (AgentPath × Metadata)).length ∧
            ∃ q v, ([(pathA, mdIdA)] : List (AgentPath × Metadata)) = (q, v) :: pre)) ∧
        st2.metadataCache = dictInsert pre (AgentPath.commandFile "b") [] ∧
        (alistContains pre (AgentPath.commandFile "b") = false →
          alistKeys st2.metadataCache = alistKeys pre ++ [AgentPath.commandFile "b"]) ∧
        (alistContains pre (AgentPath.commandFile "b") = true →
          alistKeys st2.metadataCache = alistKeys pre) :=
  cache_metadata_order_spec ⟨[(pathA, mdIdA)], [], 1⟩ fsNone (AgentPath.commandFile "b") []
    (Or.inl (by decide))

/-- Counterexample to claim C6 as stated: after `put a; put b; put a` (capacity
10), the insertion order is still `[a, b]` - the re-put path `a` is not the
most-recently-inserted entry. -/
theorem cache_reinsert_keeps_position :
    alistKeys (putSeq [(fsNone, pathA, []), (fsNone, AgentPath.commandFile "b", []),
        (fsNone, pathA, [("x", PyVal.other)])] (emptyLoaderState 10)).metadataCache
      = [pathA, AgentPath.commandFile "b"] ∧
    pathA ≠ AgentPath.commandFile "b" := by
  exact ⟨by decide, by decide⟩
/-- Claim C7: `get_cached_metadata` returns the cached mapping exactly when an
entry for the path exists and its stored modification time is not older than
the file's current one; in every other case it reports a miss, removes the
path's entries, never raises, and leaves every other entry and the capacity
unchanged.  Stated for states in which a path is metadata-cached exactly when
it is mtime-cached and the caches hold no duplicate keys - the shape every
completed `_cache_metadata` call produces while the file it cached exists. -/
theorem get_cached_metadata_spec (st : LoaderState) (fs : Fs) (p : AgentPath)
    (hsync : alistContains st.metadataCache p = alistContains st.mtimeCache p)
    (hnd1 : (alistKeys st.metadataCache).Nodup) (hnd2 : (alistKeys st.mtimeCache).Nodup) :
    ∃ r st2, get_cached_metadata st fs p = .ok (r, st2) ∧
      (∀ md m, alistLookup st.metadataCache p = some md → fsStat fs p = some m →
          m ≤ (alistLookup st.mtimeCache p).getD 0 → r = some md ∧ st2 = st) ∧
      ((alistLookup st.metadataCache p = none ∨ fsStat fs p = none ∨
          (∃ m, fsStat fs p = some m ∧ (alistLookup st.mtimeCache p).getD 0 < m)) →
        r = none ∧ alistLookup st2.metadataCache p = none ∧
          alistLookup st2.mtimeCache p = none ∧
          (∀ q, q ≠ p → alistLookup st2.metadataCache q = alistLookup st.metadataCache q) ∧
          (∀ q, q ≠ p → alistLookup st2.mtimeCache q = alistLookup st.mtimeCache q) ∧
          st2.cacheMaxSize = st.cacheMaxSize) := by
  by_cases hc : alistContains st.metadataCache p = true
  · have hcf : ¬ alistContains st.metadataCache p = false := by
      rw [hc]
      simp
    have hmtc : alistContains st.mtimeCache p = true := hsync ▸ hc
    cases hstat : fsStat fs p with
    | none =>
        have hgc : get_cached_metadata st fs p =
            .ok (none, { st with metadataCache := alistErase st.metadataCache p,
                                 mtimeCache := alistErase st.mtimeCache p }) := by
          unfold get_cached_metadata
          rw [if_neg hcf, hstat]
        refine ⟨_, _, hgc, ?_, ?_⟩
        · intro md m _ hm _
          cases hm
        · intro _
          exact ⟨rfl, alistLookup_erase_self p hnd1, alistLookup_erase_self p hnd2,
            fun q hq => alistLookup_erase_ne _ hq, fun q hq => alistLookup_erase_ne _ hq, rfl⟩
    | some m =>
        by_cases hlt : (alistLookup st.mtimeCache p).getD 0 < m
        · have hgc : get_cached_metadata st fs p =
              .ok (none, { st with metadataCache := alistErase st.metadataCache p,
                                   mtimeCache := alistErase st.mtimeCache p }) := by
            unfold get_cached_metadata
            rw [if_neg hcf, hstat]
            dsimp only
            rw [if_pos hlt, if_pos hmtc]
          refine ⟨_, _, hgc, ?_, ?_⟩
          · intro md m2 _ hm2 hle
            injection hm2 with hm2
            omega
          · intro _
            exact ⟨rfl, alistLookup_erase_self p hnd1, alistLookup_erase_self p hnd2,
              fun q hq => alistLookup_erase_ne _ hq, fun q hq => alistLookup_erase_ne _ hq, rfl⟩
        · have hgc : get_cached_metadata st fs p =
              .ok (alistLookup st.metadataCache p, st) := by
            unfold get_cached_metadata
            rw [if_neg hcf, hstat]
            dsimp only
            rw [if_neg hlt]
          refine ⟨_, _, hgc, ?_, ?_⟩
          · intro md m2 hmd _ _
            exact ⟨hmd, rfl⟩
          · intro hdis
            exfalso
            rcases hdis with hmd | hm2 | ⟨m3, hm3, hlt3⟩
            · rw [alistLookup_eq_none_iff] at hmd
              exact hmd ((alistContains_iff _ _).mp hc)
            · cases hm2
            · injection hm3 with hm3
              omega
  · have hcf : alistContains st.metadataCache p = false := by
      revert hc
      cases alistContains st.metadataCache p <;> simp
    have hmtf : alistContains st.mtimeCache p = false := hsync ▸ hcf
    have hgc : get_cached_metadata st fs p = .ok (none, st) := by
      unfold get_cached_metadata
      rw [if_pos hcf]
    have hmdn : alistLookup st.metadataCache p = none := by
      rw [alistLookup_eq_none_iff]
      exact (alistContains_false_iff _ _).mp hcf
    have hmtn : alistLookup st.mtimeCache p = none := by
      rw [alistLookup_eq_none_iff]
      exact (alistContains_false_iff _ _).mp hmtf
    refine ⟨_, _, hgc, ?_, ?_⟩
    · intro md m hmd _ _
      rw [hmdn] at hmd
      cases hmd
    · intro _
      exact ⟨rfl, hmdn, hmtn, fun q _ => rfl, fun q _ => rfl, rfl⟩

/-- Witness for claim C7: the cached, fresh `a.md` entry is returned as a hit
with the state untouched. -/
theorem get_cached_metadata_spec_witness :
    ∃ r st2, get_cached_metadata stCachedA fsOneCommand pathA = .ok (r, st2) ∧
      (∀ md m, alistLookup stCachedA.metadataCache pathA = some md →
          fsStat fsOneCommand pathA = some m →
          m ≤ (alistLookup stCachedA.mtimeCache pathA).getD 0 → r = some md ∧ st2 = stCachedA) ∧
      ((alistLookup stCachedA.metadataCache pathA = none ∨
          fsStat fsOneCommand pathA = none ∨
          (∃ m, fsStat fsOneCommand pathA = some m ∧
            (alistLookup stCachedA.mtimeCache pathA).getD 0 < m)) →
        r = none ∧ alistLookup st2.metadataCache pathA = none ∧
          alistLookup st2.mtimeCache pathA = none ∧
          (∀ q, q ≠ pathA →
            alistLookup st2.metadataCache q = alistLookup stCachedA.metadataCache q) ∧
          (∀ q, q ≠ pathA →
            alistLookup st2.mtimeCache q = alistLookup stCachedA.mtimeCache q) ∧
          st2.cacheMaxSize = stCachedA.cacheMaxSize) :=
  get_cached_metadata_spec stCachedA fsOneCommand pathA (by decide) (by decide) (by decide)

theorem splitFirstAt_of_isPrefixOf {sep l : List Char} (h : sep.isPrefixOf l = true)
    (hne : sep ≠ []) : splitFirstAt sep l = some ([], l.drop sep.length) := by
  cases l with
  | nil =>
      cases sep with
      | nil => exact absurd rfl hne
      | cons c cs => simp [List.isPrefixOf] at h
  | cons c cs =>
      unfold splitFirstAt
      rw [if_pos h]

/-- Claim C8: `extract_frontmatter` is total (it never raises) and returns
not-found (`None`) exactly when the content does not begin with the `---`
delimiter, when no closing `---` follows it (no text is enclosed), when the
enclosed text strips to nothing, or when the YAML parse raises or yields
anything other than a mapping; in every remaining case it returns the parsed
mapping.  Quantified over every behaviour of the `yaml.safe_load` black box. -/
theorem extract_frontmatter_spec (yamlLoad : String → YamlResult) (content : String) :
    (extract_frontmatter yamlLoad content = none ↔
      (delimChars.isPrefixOf content.data = false ∨
        enclosedText content.data = none ∨
        (∃ e, enclosedText content.data = some e ∧ pyStrip e = []) ∨
        (∃ e, enclosedText content.data = some e ∧ pyStrip e ≠ [] ∧
          ∀ m, yamlLoad (String.mk (pyStrip e)) ≠ YamlResult.dict m))) ∧
    (∀ m, extract_frontmatter yamlLoad content = some m ↔
      (delimChars.isPrefixOf content.data = true ∧
        ∃ e, enclosedText content.data = some e ∧ pyStrip e ≠ [] ∧
          yamlLoad (String.mk (pyStrip e)) = YamlResult.dict m)) := by
  by_cases hpre : delimChars.isPrefixOf content.data = true
  · have hpre' : ¬ delimChars.isPrefixOf content.data = false := by
      rw [hpre]
      simp
    have h1 : splitFirstAt delimChars content.data =
        some ([], content.data.drop delimChars.length) :=
      splitFirstAt_of_isPrefixOf hpre (by decide)
    cases h2 : splitFirstAt delimChars (content.data.drop delimChars.length) with
    | none =>
        have hx : extract_frontmatter yamlLoad content = none := by
          unfold extract_frontmatter pySplit2
          rw [if_neg hpre', h1]
          dsimp only
          rw [h2]
        have henc : enclosedText content.data = none := by
          unfold enclosedText
          rw [h1]
          dsimp only
          rw [h2]
        rw [hx, henc]
        constructor
        · constructor
          · intro _
            exact Or.inr (Or.inl rfl)
          · intro _
            rfl
        · intro m
          constructor
          · intro h
            exact Option.noConfusion h
          · rintro ⟨_, e, he, _⟩
            exact Option.noConfusion he
    | some br =>
        obtain ⟨b, r2⟩ := br
        have henc : enclosedText content.data = some b := by
          unfold enclosedText
          rw [h1]
          dsimp only
          rw [h2]
        by_cases hempty : pyStrip b = []
        · have hx : extract_frontmatter yamlLoad content = none := by
            unfold extract_frontmatter pySplit2
            rw [if_neg hpre', h1]
            dsimp only
            rw [h2]
            dsimp only
            rw [hempty]
            rfl
          rw [hx, henc]
          constructor
          · constructor
            · intro _
              exact Or.inr (Or.inr (Or.inl ⟨b, rfl, hempty⟩))
            · intro _
              rfl
          · intro m
            constructor
            · intro h
              exact Option.noConfusion h
            · rintro ⟨_, e, he, hse, _⟩
              injection he with he
              rw [← he] at hse
              exact absurd hempty hse
        · have hne2 : ¬ (pyStrip b).isEmpty = true := by
            rw [List.isEmpty_iff]
            exact hempty
          cases hy : yamlLoad (String.mk (pyStrip b)) with
          | raisesError =>
              have hx : extract_frontmatter yamlLoad content = none := by
                unfold extract_frontmatter pySplit2
                rw [if_neg hpre', h1]
                dsimp only
                rw [h2]
                dsimp only
                rw [if_neg hne2, hy]
              rw [hx, henc]
              constructor
              · constructor
                · intro _
                  refine Or.inr (Or.inr (Or.inr ⟨b, rfl, hempty, fun m hm => ?_⟩))
                  rw [hy] at hm
                  exact YamlResult.noConfusion hm
                · intro _
                  rfl
              · intro m
                constructor
                · intro h
                  exact Option.noConfusion h
                · rintro ⟨_, e, he, _, hd⟩
                  injection he with he
                  rw [← he, hy] at hd
                  exact YamlResult.noConfusion hd
          | nonDict =>
              have hx : extract_frontmatter yamlLoad content = none := by
                unfold extract_frontmatter pySplit2
                rw [if_neg hpre', h1]
                dsimp only
                rw [h2]
                dsimp only
                rw [if_neg hne2, hy]
              rw [hx, henc]
              constructor
              · constructor
                · intro _
                  refine Or.inr (Or.inr (Or.inr ⟨b, rfl, hempty, fun m hm => ?_⟩))
                  rw [hy] at hm
                  exact YamlResult.noConfusion hm
                · intro _
                  rfl
              · intro m
                constructor
                · intro h
                  exact Option.noConfusion h
                · rintro ⟨_, e, he, _, hd⟩
                  injection he with he
                  rw [← he, hy] at hd
                  exact YamlResult.noConfusion hd
          | dict m0 =>
              have hx : extract_frontmatter yamlLoad content = some m0 := by
                unfold extract_frontmatter pySplit2
                rw [if_neg hpre', h1]
                dsimp only
                rw [h2]
                dsimp only
                rw [if_neg hne2, hy]
              rw [hx, henc]
              constructor
              · constructor
                · intro h
                  exact Option.noConfusion h
                · rintro (h | h | ⟨e, he, hse⟩ | ⟨e, he, hse, hd⟩)
                  · rw [hpre] at h
                    exact Bool.noConfusion h
                  · exact Option.noConfusion h
                  · injection he with he
                    rw [← he] at hse
                    exact absurd hse hempty
                  · injection he with he
                    rw [← he] at hd
                    exact absurd hy (hd m0)
              · intro m
                constructor
                · intro h
                  injection h with h
                  rw [← h]
                  exact ⟨hpre, b, rfl, hempty, hy⟩
                · rintro ⟨_, e, he, _, hd⟩
                  injection he with he
                  rw [← he, hy] at hd
                  injection hd with hd
                  rw [hd]
  · have hpre2 : delimChars.isPrefixOf content.data = false := by
      revert hpre
      cases delimChars.isPrefixOf content.data <;> simp
    have hx : extract_frontmatter yamlLoad content = none := by
      unfold extract_frontmatter
      rw [if_pos hpre2]
    rw [hx]
    constructor
    · constructor
      · intro _
        exact Or.inl hpre2
      · intro _
        rfl
    · intro m
      constructor
      · intro h
        exact Option.noConfusion h
      · rintro ⟨hp, _⟩
        rw [hpre2] at hp
        exact Bool.noConfusion hp

/-- Counterexample to claim C10: a header declaring `id: ""` and `name: ""`
produces a Descriptor whose identifier and name are the empty string - not the
filename stem `"f"` - because `_load_agent_from_file` passes the present
header value itself as the fallback argument. -/
theorem empty_header_id_not_stem :
    ∃ ag st2,
      load_agent_from_file (emptyLoaderState 1000) fsEmptyIdName (AgentPath.commandFile "f")
          AgentType.command false = .ok (some ag, st2, []) ∧
        ag.id = PyVal.str "" ∧ ag.name = PyVal.str "" ∧
        (AgentPath.commandFile "f").stem = "f" := by
  exact ⟨_, _, rfl, rfl, rfl, rfl⟩

/-- Claim C10 (amended): in `create_virtual_agent` a header `id` or `name`
that is present but equal to the empty string falls back to the corresponding
`id` / `name` argument, not to the filename stem; the stem is used only when
the caller passed it as that argument (which `_load_agent_from_file` does only
when the header key is absent). -/
theorem create_virtual_agent_empty_string_fallback (ty : AgentType)
    (idArg nameArg descArg : PyVal) (src : AgentPath) (md : Metadata)
    (h1 : alistLookup md "id" = some (PyVal.str ""))
    (h2 : alistLookup md "name" = some (PyVal.str "")) :
    (create_virtual_agent ty idArg nameArg descArg src md).id = idArg ∧
    (create_virtual_agent ty idArg nameArg descArg src md).name = nameArg := by
  unfold create_virtual_agent
  simp [mget, h1, h2, pyTruthyStr]

/-- Witness for claim C10's amended theorem: with the stem passed as the
argument, an empty header id and name fall back to it. -/
theorem create_virtual_agent_empty_string_fallback_witness :
    (create_virtual_agent AgentType.command (PyVal.str "f") (PyVal.str "f") (PyVal.str "")
        (AgentPath.commandFile "f") [("id", PyVal.str ""), ("name", PyVal.str "")]).id
      = PyVal.str "f" ∧
    (create_virtual_agent AgentType.command (PyVal.str "f") (PyVal.str "f") (PyVal.str "")
        (AgentPath.commandFile "f") [("id", PyVal.str ""), ("name", PyVal.str "")]).name
      = PyVal.str "f" :=
  create_virtual_agent_empty_string_fallback AgentType.command (PyVal.str "f") (PyVal.str "f")
    (PyVal.str "") (AgentPath.commandFile "f") [("id", PyVal.str ""), ("name", PyVal.str "")]
    (by decide) (by decide)

/-- Counterexample to claim C3: with an empty cache, `a.md` exists on disk and
freshly parses to identifier `a` (loading it directly yields a Descriptor with
id `a`), yet `reload_agent "a"` returns `None` - the search never freshly
parses candidate files, it only consults cached metadata. -/
theorem reload_misses_fresh_file :
    (∃ ag st2 evs,
      load_agent_from_file (emptyLoaderState 1000) fsOneCommand pathA AgentType.command false =
          .ok (some ag, st2, evs) ∧ ag.id = PyVal.str "a") ∧
    reload_agent (emptyLoaderState 1000) fsOneCommand "a" =
      .ok (none, emptyLoaderState 1000, []) := by
  exact ⟨⟨_, _, _, rfl, rfl⟩, rfl⟩

/-- Claim C3 (amended): `reload_agent` resolves identifiers only through
cached metadata - with an empty metadata cache it returns `None` for every
identifier, whatever definition files exist on disk (absent enumeration
faults, which would raise instead). -/
theorem reload_agent_empty_cache_none (st : LoaderState) (fs : Fs) (agent_id : String)
    (hmd : st.metadataCache = [])
    (hcf : fs.commandsFault = false) (hsf : fs.skillsFault = false)
    (haf : fs.agentsFault = false) :
    reload_agent st fs agent_id = .ok (none, st, []) := by
  have hsearch : ∀ cands : List (AgentPath × AgentType),
      reloadSearch fs agent_id cands st = .ok (none, st, []) := by
    intro cands
    induction cands with
    | nil => rfl
    | cons c rest ih =>
        obtain ⟨p, ty⟩ := c
        have hc : alistContains st.metadataCache p = false := by
          rw [hmd]
          rfl
        have hget : get_cached_metadata st fs p = .ok (none, st) := by
          unfold get_cached_metadata
          rw [if_pos hc]
        simp only [reloadSearch, hget]
        exact ih
  have hdir : ∀ (de fa : Bool) (cands : List (AgentPath × AgentType)), fa = false →
      reloadDir fs agent_id de fa cands st = .ok (none, st, []) := by
    intro de fa cands hfa
    unfold reloadDir
    by_cases hde : de = false
    · rw [if_pos hde]
    · rw [if_neg hde, hfa]
      have hft : ¬ (false = true) := by simp
      rw [if_neg hft]
      exact hsearch cands
  have d1 := hdir fs.commandsDirExists fs.commandsFault (commandCandidates fs) hcf
  have d2 := hdir fs.skillsDirExists fs.skillsFault (skillCandidates fs) hsf
  have d3 := hdir fs.agentsDirExists fs.agentsFault (agentCandidates fs) haf
  unfold reload_agent
  rw [d1]
  dsimp only
  rw [d2]
  dsimp only
  rw [d3]

/-- Witness for claim C3's amended theorem: a fresh loader finds nothing to
reload even though `a.md` exists. -/
theorem reload_agent_empty_cache_none_witness :
    reload_agent (emptyLoaderState 7) fsOneCommand "z" = .ok (none, emptyLoaderState 7, []) :=
  reload_agent_empty_cache_none (emptyLoaderState 7) fsOneCommand "z" rfl rfl rfl rfl

/-- Claim C2, the code evaluated at the failing input: `a.md` is cached and
fresh, so `reload_agent "a"` matches it; the file was previously cached, so
the claim calls for a `modified` event, but because `reload_agent` deletes the
cache entry before `_load_agent_from_file` reads `was_cached`, the emitted
event is `added`. -/
theorem reload_emits_added_for_cached_file :
    ∃ ag st2,
      reload_agent stCachedA fsOneCommand "a" =
        .ok (some ag, st2,
          [⟨ChangeKind.added, PyVal.str "a", AgentType.command, pathA⟩]) := by
  exact ⟨_, _, rfl⟩

theorem processAdded_skips_known (fs : Fs) (st : LoaderState)
    (known : List (AgentPath × Nat)) :
    ∀ items : List (AgentPath × Nat),
      (∀ p m, (p, m) ∈ items → alistContains known p = true) →
      processAdded fs items st known = .ok (st, known, []) := by
  intro items
  induction items with
  | nil =>
      intro _
      rfl
  | cons pm rest ih =>
      intro h
      obtain ⟨p, m⟩ := pm
      have hp : alistContains known p = true := h p m (List.mem_cons_self _ _)
      rw [processAdded, if_pos hp]
      exact ih (fun q w hw => h q w (List.mem_cons_of_mem _ hw))

theorem processModified_skips_unchanged (fs : Fs) (st : LoaderState)
    (known : List (AgentPath × Nat)) :
    ∀ items : List (AgentPath × Nat),
      (∀ p m, (p, m) ∈ items → alistLookup known p = some m) →
      processModified fs items st known = .ok (st, known, []) := by
  intro items
  induction items with
  | nil =>
      intro _
      rfl
  | cons pm rest ih =>
      intro h
      obtain ⟨p, m⟩ := pm
      have hp : alistLookup known p = some m := h p m (List.mem_cons_self _ _)
      rw [processModified, hp]
      dsimp only
      rw [if_neg (lt_irrefl m)]
      exact ih (fun q w hw => h q w (List.mem_cons_of_mem _ hw))

theorem watchSnapshot_nodupKeys (fs : Fs) (cur : List (AgentPath × Nat))
    (h : watchSnapshot fs = .ok cur) : (alistKeys cur).Nodup := by
  have hfold : ∀ (items : List (AgentPath × Nat)) (acc : List (AgentPath × Nat)),
      (alistKeys acc).Nodup →
      (alistKeys (items.foldl (fun k pm => dictInsert k pm.1 pm.2) acc)).Nodup := by
    intro items
    induction items with
    | nil =>
        intro acc hacc
        exact hacc
    | cons pm rest ih =>
        intro acc hacc
        exact ih _ (alistKeys_nodup_dictInsert _ _ hacc)
  unfold watchSnapshot at h
  by_cases hf : ((fs.commandsDirExists && fs.commandsFault) ||
      (fs.skillsDirExists && fs.skillsFault) || (fs.agentsDirExists && fs.agentsFault)) = true
  · rw [if_pos hf] at h
    cases h
  · rw [if_neg hf] at h
    injection h with h
    rw [← h]
    exact hfold _ [] (by simp [alistKeys])

/-- Claim C1 (amended): `watch_changes` pre-populates its previous snapshot
with every monitored path existing when it starts, so a first poll cycle over
an unchanged tree emits no events at all - in particular, no `added` event for
any already-existing path; the loader state and the snapshot come back
unchanged. -/
theorem watch_first_cycle_unchanged_silent (st : LoaderState) (fs : Fs)
    (cur : List (AgentPath × Nat)) (h : watchSnapshot fs = .ok cur) :
    watchCycle st cur fs = .ok (st, cur, []) := by
  have hnd := watchSnapshot_nodupKeys fs cur h
  unfold watchCycle
  rw [h]
  dsimp only
  have ha := processAdded_skips_known fs st cur cur
    (fun p m hm => by
      rw [alistContains_iff]
      exact List.mem_map.mpr ⟨(p, m), hm, rfl⟩)
  rw [ha]
  dsimp only
  have hm := processModified_skips_unchanged fs st cur cur
    (fun p m hm => alistLookup_of_mem_nodup hnd hm)
  rw [hm]
  dsimp only
  have hfilter : (alistKeys cur).filter (fun p => !(alistContains cur p)) = [] := by
    rw [List.filter_eq_nil_iff]
    intro p hp
    have hc : alistContains cur p = true := (alistContains_iff _ _).mpr hp
    rw [hc]
    simp
  rw [hfilter]
  rfl

/-- Witness for claim C1's amended theorem: with `a.md` present at start, the
first cycle over the unchanged tree is silent. -/
theorem watch_first_cycle_unchanged_silent_witness :
    watchCycle (emptyLoaderState 1000) [(pathA, 5)] fsOneCommand =
      .ok (emptyLoaderState 1000, [(pathA, 5)], []) :=
  watch_first_cycle_unchanged_silent (emptyLoaderState 1000) fsOneCommand [(pathA, 5)] rfl

/-- Counterexample to claim C1: `a.md` already exists when the watcher starts,
so the initial snapshot (the watcher's previous snapshot for its first cycle)
is not empty - it contains `a.md` - and the first cycle emits no events: no
`added` event is emitted for the pre-existing monitored path. -/
theorem watch_first_cycle_no_added_for_existing :
    watchSnapshot fsOneCommand = .ok [(pathA, 5)] ∧
    watchCycle (emptyLoaderState 1000) [(pathA, 5)] fsOneCommand =
      .ok (emptyLoaderState 1000, [(pathA, 5)], []) :=
  ⟨rfl, rfl⟩

theorem scan_commands_empty_cases (st : LoaderState) (fs : Fs)
    (h : fs.commandsDirExists = false ∨ fs.commandsFault = true) :
    gatherPart (scan_commands st fs) = ([], st) := by
  rcases h with he | hf
  · unfold scan_commands
    rw [if_pos he]
    rfl
  · by_cases hde : fs.commandsDirExists = false
    · unfold scan_commands
      rw [if_pos hde]
      rfl
    · unfold scan_commands
      rw [if_neg hde, if_pos hf]
      rfl

theorem scan_skills_empty_cases (st : LoaderState) (fs : Fs)
    (h : fs.skillsDirExists = false ∨ fs.skillsFault = true) :
    gatherPart (scan_skills st fs) = ([], st) := by
  rcases h with he | hf
  · unfold scan_skills
    rw [if_pos he]
    rfl
  · by_cases hde : fs.skillsDirExists = false
    · unfold scan_skills
      rw [if_pos hde]
      rfl
    · unfold scan_skills
      rw [if_neg hde, if_pos hf]
      rfl

theorem scan_custom_agents_empty_cases (st : LoaderState) (fs : Fs)
    (h : fs.agentsDirExists = false ∨ fs.agentsFault = true) :
    gatherPart (scan_custom_agents st fs) = ([], st) := by
  rcases h with he | hf
  · unfold scan_custom_agents
    rw [if_pos he]
    rfl
  · by_cases hde : fs.agentsDirExists = false
    · unfold scan_custom_agents
      rw [if_pos hde]
      rfl
    · unfold scan_custom_agents
      rw [if_neg hde, if_pos hf]
      rfl
/-- Claim C9: `scan_all` never raises and returns the concatenation of the
three per-category contributions in commands, skills, agents order; a category
whose root is missing, or whose scan faulted, contributes the empty list and
leaves the state it received untouched, without affecting the other two
categories' contributions. -/
theorem scan_all_spec (st : LoaderState) (fs : Fs) :
    ∃ l1 st1 l2 st2 l3 st3,
      gatherPart (scan_commands st fs) = (l1, st1) ∧
      gatherPart (scan_skills st1 fs) = (l2, st2) ∧
      gatherPart (scan_custom_agents st2 fs) = (l3, st3) ∧
      scan_all st fs = (l1 ++ l2 ++ l3, st3) ∧
      (fs.commandsDirExists = false ∨ fs.commandsFault = true → l1 = [] ∧ st1 = st) ∧
      (fs.skillsDirExists = false ∨ fs.skillsFault = true → l2 = [] ∧ st2 = st1) ∧
      (fs.agentsDirExists = false ∨ fs.agentsFault = true → l3 = [] ∧ st3 = st2) := by
  rcases hg1 : gatherPart (scan_commands st fs) with ⟨l1, st1⟩
  rcases hg2 : gatherPart (scan_skills st1 fs) with ⟨l2, st2⟩
  rcases hg3 : gatherPart (scan_custom_agents st2 fs) with ⟨l3, st3⟩
  refine ⟨l1, st1, l2, st2, l3, st3, rfl, hg2, hg3, ?_, ?_, ?_, ?_⟩
  · unfold scan_all
    rw [hg1]
    dsimp only
    rw [hg2]
    dsimp only
    rw [hg3]
  · intro h
    have he := scan_commands_empty_cases st fs h
    rw [hg1] at he
    exact ⟨(Prod.ext_iff.mp he).1, (Prod.ext_iff.mp he).2⟩
  · intro h
    have he := scan_skills_empty_cases st1 fs h
    rw [hg2] at he
    exact ⟨(Prod.ext_iff.mp he).1, (Prod.ext_iff.mp he).2⟩
  · intro h
    have he := scan_custom_agents_empty_cases st2 fs h
    rw [hg3] at he
    exact ⟨(Prod.ext_iff.mp he).1, (Prod.ext_iff.mp he).2⟩

/-- Witness for claim C9: with every root missing, `scan_all` returns the
empty concatenation and the untouched state. -/
theorem scan_all_spec_witness :
    ∃ l1 st1 l2 st2 l3 st3,
      gatherPart (scan_commands (emptyLoaderState 3) fsNone) = (l1, st1) ∧
      gatherPart (scan_skills st1 fsNone) = (l2, st2) ∧
      gatherPart (scan_custom_agents st2 fsNone) = (l3, st3) ∧
      scan_all (emptyLoaderState 3) fsNone = (l1 ++ l2 ++ l3, st3) ∧
      (fsNone.commandsDirExists = false ∨ fsNone.commandsFault = true →
        l1 = [] ∧ st1 = emptyLoaderState 3) ∧
      (fsNone.skillsDirExists = false ∨ fsNone.skillsFault = true → l2 = [] ∧ st2 = st1) ∧
      (fsNone.agentsDirExists = false ∨ fsNone.agentsFault = true → l3 = [] ∧ st3 = st2) :=
  scan_all_spec (emptyLoaderState 3) fsNone
